import Mathlib

/-!
Verification development for the two-stage Wikipedia passage pipeline:
`extract_paragraphs_from_page_htmls.py` (paragraph extraction with a
heading-context state machine and text normalization) and
`make_passages_from_paragraphs.py` (sentence-respecting chunk balancing
and passage grouping).

Modelling conventions.  Strings are `List Char`.  Python `float`
arithmetic on `total_nchar / nchunk` is modelled by exact rational
arithmetic; Python `round` is modelled by round-half-to-even (the two
agree except at astronomically large inputs where a double cannot
represent the quotient near a tie).  External collaborators — the MeCab
sentence splitter, the HTML parser and Unicode NFKC normalization —
are parameters of the corresponding definitions; the HTML traversal is
abstracted to the stream of extractable-tag events it produces, which is
exactly the information the heading-context state machine consumes.
Fallible code returns `Option` / `Except`: the `while True` chunk-count
loop carries fuel and an exhausted loop is `none` (the Python loop
diverges when `max_nchar <= 0`), and `generate_passages` reports the
`data[0]` `IndexError` on an empty stream as `.error .indexError`.
-/

set_option maxRecDepth 4000

abbrev Str := List Char

/-- Python whitespace test (`str.isspace` / the class stripped by
`str.strip` and split by `str.split`), faithful on the ASCII range. -/
def pySpace (c : Char) : Bool :=
  c == ' ' || c == '\t' || c == '\n' || c == '\r' || c == '\x0b' || c == '\x0c' ||
    (0x1c ≤ c.toNat && c.toNat ≤ 0x1f)

/-- Python `str.isprintable`, faithful on the ASCII range (control
characters are non-printable, the space and the visible characters are
printable). -/
def pyPrintable (c : Char) : Bool :=
  0x20 ≤ c.toNat && c.toNat != 0x7f

/-- Python `str.strip()`: drop leading and trailing whitespace. -/
def pyStrip (s : Str) : Str :=
  (((s.dropWhile pySpace).reverse).dropWhile pySpace).reverse

/-- Python `sep.join(words)` for a one-character separator. -/
def joinSep (sep : Char) : List Str → Str
  | [] => []
  | [w] => w
  | w :: v :: ws => w ++ sep :: joinSep sep (v :: ws)

/-- Does the string begin with a non-whitespace character (i.e. inside a
word)? -/
def startsWord (s : Str) : Bool :=
  match s with
  | d :: _ => !pySpace d
  | [] => false

/-- Python `str.split()` (no argument): maximal runs of non-whitespace
characters, discarding all whitespace and empty fragments. -/
def pySplitWs : Str → List Str
  | [] => []
  | c :: s =>
    if pySpace c then pySplitWs s
    else
      if startsWord s then
        match pySplitWs s with
        | [] => [[c]]
        | w :: rest => (c :: w) :: rest
      else [c] :: pySplitWs s

/-- `normalize_text` from `extract_paragraphs_from_page_htmls.py`.
The Unicode NFKC normalizer (`unicodedata.normalize("NFKC", ·)`) is an
external collaborator and is passed as the parameter `nfkc`; the
remaining three steps — whitespace collapse via `" ".join(text.split())`,
the `isprintable` filter, and `strip` — are modelled directly. -/
def normalize_text (nfkc : Str → Str) (text : Str) : Str :=
  pyStrip ((joinSep ' ' (pySplitWs (nfkc text))).filter pyPrintable)

/-- Does the string begin with a newline character? -/
def startsNl (s : Str) : Bool :=
  match s with
  | d :: _ => d == '\n'
  | [] => false

/-- Python `re.split(r'\x7bnewline\x7d+', text)`: fragments between maximal
runs of newline characters, keeping empty fragments only at the two ends
(and `[""]` for the empty string). -/
def splitRuns : Str → List Str
  | [] => [[]]
  | c :: s =>
    if c = '\n' then
      if startsNl s then splitRuns s else [] :: splitRuns s
    else
      match splitRuns s with
      | [] => [[c]]
      | seg :: rest => (c :: seg) :: rest

/-- The statement `sentences[-1] = sentences[-1] + "\n"`: append a newline
to the last element of the sentence list (no effect on an empty list). -/
def appendNl : List Str → List Str
  | [] => []
  | [s] => [s ++ ['\n']]
  | s :: t :: r => s :: appendNl (t :: r)

/-- The sentence-assembly loop of `split_section`: for every newline-run
fragment of the text, append the splitter's sentences and then attach a
newline to the last sentence collected so far. -/
def buildSentences (splitter : Str → List Str) (lines : List Str) : List Str :=
  lines.foldl (fun acc line => appendNl (acc ++ splitter line)) []

/-- Python `round` on an exact rational: round half to even. -/
def pyRound (q : ℚ) : ℤ :=
  let f := q.floor
  let r := q - (f : ℚ)
  if r < 1/2 then f
  else if 1/2 < r then f + 1
  else if f % 2 = 0 then f else f + 1

/-- The `while True` chunk-count adjustment loop of `split_section`:
increment `nchunk` while `total_nchar / nchunk > max_nchar`.  Fuel makes
the recursion total; `none` models divergence. -/
def adjustLoop : ℕ → ℕ → ℕ → ℕ → Option ℕ
  | 0, _, _, _ => none
  | fuel + 1, total, maxN, n =>
    if (maxN : ℚ) < (total : ℚ) / (n : ℚ) then adjustLoop fuel total maxN (n + 1)
    else some n

/-- State of the greedy packing loop of `split_section`:
`nchar` counts consumed characters, `chunkId` is the 1-based current
chunk number, `chunks` the emitted chunks, `cur` the open chunk text. -/
structure PackState where
  nchar : ℕ
  chunkId : ℕ
  chunks : List Str
  cur : Str

/-- One iteration of the packing loop: before appending a sentence of
length `l`, if `nchar + l / 2 >= nchar_chunk * chunk_id` and the current
chunk is not the last planned one, close the current chunk (stripped). -/
def packStep (ncharChunk : ℚ) (nchunk : ℕ) (st : PackState) (sent : Str) : PackState :=
  let l := sent.length
  let st1 :=
    if ncharChunk * (st.chunkId : ℚ) ≤ ((st.nchar + l / 2 : ℕ) : ℚ) then
      if st.chunkId ≠ nchunk then
        ⟨st.nchar, st.chunkId + 1, st.chunks ++ [pyStrip st.cur], []⟩
      else st
    else st
  ⟨st1.nchar + l, st1.chunkId, st1.chunks, st1.cur ++ sent⟩

/-- The packing loop plus the final `if chunk_text != ""` emission. -/
def packChunks (ncharChunk : ℚ) (nchunk : ℕ) (sentences : List Str) : List Str :=
  let st := sentences.foldl (packStep ncharChunk nchunk) ⟨0, 1, [], []⟩
  if st.cur ≠ [] then st.chunks ++ [pyStrip st.cur] else st.chunks

/-- `split_section` from `make_passages_from_paragraphs.py`.  Returns the
input unchanged when it fits the budget; otherwise estimates the chunk
count with `max(1, round(total/max))`, grows it until the average chunk
size fits, splits into sentences line by line, and packs greedily. -/
def split_section (text : Str) (splitter : Str → List Str) (max_nchar : ℕ) :
    Option (List Str) :=
  if text.length ≤ max_nchar then some [text]
  else
    match adjustLoop (text.length + 1) text.length max_nchar
        (max 1 (pyRound ((text.length : ℚ) / (max_nchar : ℚ))).toNat) with
    | none => none
    | some n =>
      some (packChunks ((text.length : ℚ) / (n : ℚ)) n
        (buildSentences splitter (splitRuns text)))

/-- Heading context of the Section Walker: the four mutable variables
`h2, h3, h4, dt`.  This is also the shape of the `section` dictionary of
a paragraph record (only present keys are serialized). -/
structure HCtx where
  h2 : Option Str
  h3 : Option Str
  h4 : Option Str
  dt : Option Str
  deriving DecidableEq, Repr

/-- One extractable-tag event of the HTML traversal, as seen by the
heading-context state machine of `extract_paragraphs_from_html`: a
section-level `h2`, a context-mutating `h3`/`h4`/`dt`, or any other
extracted element carrying its text and tag name. -/
inductive HTag where
  | h2 (s : Str)
  | h3 (s : Str)
  | h4 (s : Str)
  | dt (s : Str)
  | para (text : Str) (kind : Str)
  deriving DecidableEq, Repr

/-- The context update of `extract_paragraphs_from_html`: `h2` resets
`h3, h4, dt`; `h3` resets `h4, dt`; `h4` resets `dt`; `dt` resets
nothing; other elements leave the context unchanged. -/
def stepCtx (c : HCtx) : HTag → HCtx
  | .h2 s => ⟨some s, none, none, none⟩
  | .h3 s => ⟨c.h2, some s, none, none⟩
  | .h4 s => ⟨c.h2, c.h3, some s, none⟩
  | .dt s => ⟨c.h2, c.h3, c.h4, some s⟩
  | .para _ _ => c

/-- `extract_paragraphs_from_html`, abstracted over the stream of
extractable-tag events produced by the HTML tree walk (tag removal and
the nested-ancestor skip rule determine which events appear in the
stream; the state machine below is what the function does with them).
Every `para` event yields a record `(context, normalize_text text, tag)`;
heading events only mutate the context. -/
def extract_paragraphs_from_html (nfkc : Str → Str) (c : HCtx) :
    List HTag → List (HCtx × Str × Str)
  | [] => []
  | .para t k :: es => (c, normalize_text nfkc t, k) :: extract_paragraphs_from_html nfkc c es
  | e :: es => extract_paragraphs_from_html nfkc (stepCtx c e) es

/-- The hierarchy invariant of a heading context: if `h3` is absent then
`h4` and `dt` are absent, and if `h4` is absent then `dt` is absent. -/
def monoCtx (c : HCtx) : Bool :=
  (!c.h3.isNone || (c.h4.isNone && c.dt.isNone)) && (!c.h4.isNone || c.dt.isNone)

/-- One event respects the `h3 -> h4 -> dt` ordering in context `c`:
an `h4` requires an `h3` in scope, a `dt` requires an `h4` in scope. -/
def wfCond (c : HCtx) : HTag → Bool
  | .h4 _ => c.h3.isSome
  | .dt _ => c.h4.isSome
  | _ => true

/-- Well-ordered heading streams: every `h4` event arrives while an `h3`
is in scope and every `dt` event arrives while an `h4` is in scope (the
`h3 -> h4 -> dt` ordering the source comments assume of the input). -/
def wfTags (c : HCtx) : List HTag → Bool
  | [] => true
  | e :: es => wfCond c e && wfTags (stepCtx c e) es

/-- All emitted records satisfy the hierarchy invariant. -/
def allMono (rs : List (HCtx × Str × Str)) : Bool :=
  rs.all (fun r => monoCtx r.1)

/-- One line of the paragraphs file consumed by `generate_passages`:
the fields of the JSON record that the function reads. -/
structure ParaRecord where
  pageid : ℕ
  revid : ℕ
  title : Str
  sect : HCtx
  text : Str
  deriving DecidableEq, Repr

/-- One passage record produced by `generate_passages` (before JSON
serialization). -/
structure Passage where
  id : ℕ
  pageid : ℕ
  revid : ℕ
  title : Str
  sect : HCtx
  text : Str
  deriving DecidableEq, Repr

/-- Failures of `generate_passages`: the `data[0]` IndexError on an
empty stream, or divergence of the chunk-count loop inside
`split_section`. -/
inductive PyErr where
  | indexError
  | splitFail
  deriving DecidableEq, Repr

/-- The flush of one buffered group: one passage per chunk, ids assigned
sequentially from `pid`, identity fields taken from `lastrow`. -/
def mkPassages (pid : ℕ) (lastrow : ParaRecord) (chunks : List Str) : List Passage :=
  ((List.range chunks.length).zip chunks).map
    (fun ic => ⟨pid + ic.1, lastrow.pageid, lastrow.revid, lastrow.title, lastrow.sect, ic.2⟩)

/-- Loop state of `generate_passages`: the passage-id counter, the
buffered rows of the current group, the previous row, and the passages
yielded so far. -/
structure GPState where
  pid : ℕ
  rows : List ParaRecord
  last : ParaRecord
  out : List Passage

/-- One iteration of the `for row in data` loop of `generate_passages`:
on a `(title, section)` change flush the buffer through `split_section`,
then append the row to the buffer and advance `lastrow`. -/
def gpStep (splitter : Str → List Str) (maxLen : ℕ) (st : GPState) (row : ParaRecord) :
    Except PyErr GPState :=
  if row.title ≠ st.last.title ∨ row.sect ≠ st.last.sect then
    match split_section (joinSep '\n' (st.rows.map (·.text))) splitter maxLen with
    | none => .error .splitFail
    | some chunks =>
      .ok ⟨st.pid + chunks.length, [row], row, st.out ++ mkPassages st.pid st.last chunks⟩
  else
    .ok ⟨st.pid, st.rows ++ [row], row, st.out⟩

/-- `generate_passages` from `make_passages_from_paragraphs.py`, over the
already-parsed record list.  `lastrow = data[0]` raises `IndexError` on
an empty stream.  Note the loop body is the only emission point: there is
no flush after the loop, so the final buffered group produces nothing. -/
def generate_passages (data : List ParaRecord) (max_passage_length : ℕ)
    (sentence_splitter : Str → List Str) : Except PyErr (List Passage) :=
  match data with
  | [] => .error .indexError
  | d0 :: _ =>
    (data.foldlM (gpStep sentence_splitter max_passage_length) ⟨0, [], d0, []⟩).map GPState.out

/-- Characters of a `String` literal, for readable test data. -/
def strL (s : String) : Str := s.data

/-- JSON string escaping as performed by `json.dumps` with
`ensure_ascii=False` (quote, backslash and newline; other control
characters do not occur in the data considered here). -/
def jsonEscape (s : Str) : Str :=
  s.foldr (fun c acc =>
    (if c = '"' then ['\\', '"']
     else if c = '\\' then ['\\', '\\']
     else if c = '\n' then ['\\', 'n']
     else [c]) ++ acc) []

/-- `json.dumps` of a string value. -/
def dumpsStr (s : Str) : Str := '"' :: jsonEscape s ++ ['"']

/-- `json.dumps` of an integer value. -/
def dumpsInt (n : ℤ) : Str :=
  if n < 0 then '-' :: Nat.toDigits 10 n.natAbs else Nat.toDigits 10 n.toNat

/-- Fields of a JSON object joined by the default `", "` separator. -/
def joinFields : List Str → Str
  | [] => []
  | [f] => f
  | f :: g :: r => f ++ ',' :: ' ' :: joinFields (g :: r)

/-- `json.dumps` of an object whose field values are already serialized:
`"key": value` pairs between braces, in insertion order. -/
def dumpsObj (fs : List (Str × Str)) : Str :=
  '\x7b' :: joinFields (fs.map (fun kv => dumpsStr kv.1 ++ ':' :: ' ' :: kv.2)) ++ ['\x7d']

/-- Serialization of the `section` dictionary: only present keys, in the
order `h2, h3, h4, dt` (as built by the extractor's `sections_dict`). -/
def sectionDump (c : HCtx) : Str :=
  dumpsObj
    ((match c.h2 with | some s => [(strL "h2", dumpsStr s)] | none => []) ++
     (match c.h3 with | some s => [(strL "h3", dumpsStr s)] | none => []) ++
     (match c.h4 with | some s => [(strL "h4", dumpsStr s)] | none => []) ++
     (match c.dt with | some s => [(strL "dt", dumpsStr s)] | none => []))

/-- The `json.dumps(..., ensure_ascii=False)` call inside
`generate_passages`: the serialized passage object that the generator
yields (already a string). -/
def passageDump (p : Passage) : Str :=
  dumpsObj [(strL "id", dumpsInt p.id), (strL "pageid", dumpsInt p.pageid),
    (strL "revid", dumpsInt p.revid), (strL "title", dumpsStr p.title),
    (strL "section", sectionDump p.sect), (strL "text", dumpsStr p.text)]

/-- The output stage of `main`: for every item yielded by
`generate_passages` (itself already a serialized JSON object), `main`
prints `json.dumps(passage_item, ensure_ascii=False)` — serializing the
string a second time.  Each returned element is one output line. -/
def mainLines (data : List ParaRecord) (maxLen : ℕ) (splitter : Str → List Str) :
    Except PyErr (List Str) :=
  (generate_passages data maxLen splitter).map
    (List.map (fun p => dumpsStr (passageDump p)))

/-- A degenerate but contract-satisfying sentence splitter: the whole
line is one sentence. -/
def idSplitter : Str → List Str := fun line => [line]

/-- A contract-satisfying sentence splitter returning one sentence per
character. -/
def charSplitter : Str → List Str := fun line => line.map (fun c => [c])

/-- The non-whitespace character sequence of a string: the text content
that survives newline collapsing, chunk-edge trimming and separator
re-insertion. -/
def content (s : Str) : Str := s.filter (fun c => !pySpace c)

/-- Sample heading context `h2 = "X"`. -/
def secX : HCtx := ⟨some (strL "X"), none, none, none⟩

/-- Sample paragraph record of title `A`. -/
def recA : ParaRecord := ⟨1, 2, strL "A", secX, strL "hello"⟩

/-- A second paragraph record sharing title and section with `recA`. -/
def recA2 : ParaRecord := ⟨1, 2, strL "A", secX, strL "world"⟩

/-- Sample paragraph record of a different title `B`. -/
def recB : ParaRecord := ⟨3, 4, strL "B", secX, strL "bye"⟩

/-- The single passage that flushing the group of `recA` produces. -/
def passage0 : Passage := ⟨0, 1, 2, strL "A", secX, strL "hello"⟩

/-- Counterexample text for the chunk round-trip: an interior newline run
followed by one long line. -/
def cex3Text : Str := strL "a\n\nb\n" ++ List.replicate 20 'c'

/-- A well-ordered heading event stream: `h2`, `h3`, `h4` and then one
paragraph. -/
def evsW : List HTag :=
  [HTag.h2 (strL "X"), HTag.h3 (strL "A"), HTag.h4 (strL "B"),
   HTag.para (strL "body text") (strL "p")]

/-! ### Helper lemmas: the chunk-count adjustment loop -/

theorem adjust_guard_iff (total maxN n : ℕ) (hn : 0 < n) :
    ((maxN : ℚ) < (total : ℚ) / (n : ℚ)) ↔ maxN * n < total := by
  rw [lt_div_iff₀ (by exact_mod_cast hn)]
  constructor
  · intro h; exact_mod_cast h
  · intro h; exact_mod_cast h

theorem adjustLoop_some (total maxN : ℕ) :
    ∀ (fuel n : ℕ), 0 < n → total ≤ maxN * (n + fuel) →
      ∃ nf, adjustLoop (fuel + 1) total maxN n = some nf ∧ 0 < nf ∧ total ≤ maxN * nf := by
  intro fuel
  induction fuel with
  | zero =>
    intro n hn hle
    refine ⟨n, ?_, hn, by simpa using hle⟩
    unfold adjustLoop
    rw [if_neg]
    rw [adjust_guard_iff total maxN n hn]
    simpa using hle
  | succ f ih =>
    intro n hn hle
    by_cases hg : maxN * n < total
    · have hstep : adjustLoop (f + 1 + 1) total maxN n = adjustLoop (f + 1) total maxN (n + 1) := by
        rw [adjustLoop, if_pos ((adjust_guard_iff total maxN n hn).mpr hg)]
      rw [hstep]
      refine ih (n + 1) (by omega) ?_
      have harith : n + 1 + f = n + (f + 1) := by omega
      rw [harith]
      exact hle
    · refine ⟨n, ?_, hn, by omega⟩
      unfold adjustLoop
      rw [if_neg]
      rw [adjust_guard_iff total maxN n hn]
      omega

/-- C6: for every text longer than the budget and every budget of at
least one character, the chunk-count adjustment loop of `split_section`
(fuel `len + 1` suffices) terminates starting from
`max(1, round(len / max_chars))`, and the per-chunk target
`len / nchunk` at exit does not exceed `max_chars`. -/
theorem c6_adjust_terminates (text : Str) (max_nchar : ℕ)
    (hm : 1 ≤ max_nchar) (_hlen : max_nchar < text.length) :
    (adjustLoop (text.length + 1) text.length max_nchar
        (max 1 (pyRound ((text.length : ℚ) / (max_nchar : ℚ))).toNat)).isSome = true ∧
    (text.length : ℚ) /
        ((adjustLoop (text.length + 1) text.length max_nchar
          (max 1 (pyRound ((text.length : ℚ) / (max_nchar : ℚ))).toNat)).getD 1 : ℚ) ≤
      max_nchar := by
  have hn0 : 0 < max 1 (pyRound ((text.length : ℚ) / (max_nchar : ℚ))).toNat :=
    lt_of_lt_of_le Nat.zero_lt_one (le_max_left _ _)
  have hfuel : text.length ≤
      max_nchar * (max 1 (pyRound ((text.length : ℚ) / (max_nchar : ℚ))).toNat + text.length) := by
    calc text.length ≤ max 1 (pyRound ((text.length : ℚ) / (max_nchar : ℚ))).toNat + text.length := by
          omega
      _ ≤ max_nchar * (max 1 (pyRound ((text.length : ℚ) / (max_nchar : ℚ))).toNat + text.length) :=
          Nat.le_mul_of_pos_left _ hm
  obtain ⟨nf, heq, hnf, hle⟩ :=
    adjustLoop_some text.length max_nchar text.length
      (max 1 (pyRound ((text.length : ℚ) / (max_nchar : ℚ))).toNat) hn0 hfuel
  rw [heq]
  refine ⟨rfl, ?_⟩
  show (text.length : ℚ) / (nf : ℚ) ≤ max_nchar
  rw [div_le_iff₀ (by exact_mod_cast hnf)]
  exact_mod_cast hle

/-- C6 witness: at a text of 2000 characters and budget 750 the loop
stops at `nchunk = 3` with target `2000/3 ≤ 750`. -/
theorem c6_adjust_terminates_witness :
    (adjustLoop ((List.replicate 2000 'a').length + 1) (List.replicate 2000 'a').length 750
        (max 1 (pyRound (((List.replicate 2000 'a').length : ℚ) / (750 : ℚ))).toNat)).isSome = true ∧
    ((List.replicate 2000 'a').length : ℚ) /
        ((adjustLoop ((List.replicate 2000 'a').length + 1) (List.replicate 2000 'a').length 750
          (max 1 (pyRound (((List.replicate 2000 'a').length : ℚ) / (750 : ℚ))).toNat)).getD 1 : ℚ) ≤
      750 :=
  c6_adjust_terminates (List.replicate 2000 'a') 750 (by decide)
    (by rw [List.length_replicate]; norm_num)

/-- C5: a text that already fits the budget is returned unchanged as the
single chunk, with no trimming and no splitting. -/
theorem c5_small_text_identity (text : Str) (splitter : Str → List Str) (max_nchar : ℕ)
    (h : text.length ≤ max_nchar) :
    split_section text splitter max_nchar = some [text] := by
  unfold split_section
  rw [if_pos h]

/-- C5 witness at the two-character text `hi` and the default budget. -/
theorem c5_small_text_identity_witness :
    (strL "hi").length ≤ 750 ∧ split_section (strL "hi") idSplitter 750 = some [strL "hi"] :=
  ⟨by decide, c5_small_text_identity (strL "hi") idSplitter 750 (by decide)⟩

/-! ### The Passage Grouper: end-of-stream behaviour, ids, output lines -/

theorem gpStep_err (sp : Str → List Str) (m : ℕ) (st : GPState) (row : ParaRecord)
    (e : PyErr) (h : gpStep sp m st row = .error e) : e = .splitFail := by
  unfold gpStep at h
  by_cases hc : row.title ≠ st.last.title ∨ row.sect ≠ st.last.sect
  · rw [if_pos hc] at h
    rcases hs : split_section (joinSep '\n' (st.rows.map (·.text))) sp m with _ | chunks
    · rw [hs] at h
      injection h with h'
      exact h'.symm
    · rw [hs] at h
      exact absurd h (by simp)
  · rw [if_neg hc] at h
    exact absurd h (by simp)

theorem gpFold_no_index (sp : Str → List Str) (m : ℕ) :
    ∀ (l : List ParaRecord) (st : GPState),
      l.foldlM (gpStep sp m) st ≠ .error .indexError := by
  intro l
  induction l with
  | nil =>
    intro st h
    rw [List.foldlM_nil] at h
    exact Except.noConfusion h
  | cons r rs ih =>
    intro st
    rw [List.foldlM_cons]
    rcases hs : gpStep sp m st r with e | st'
    · have he := gpStep_err sp m st r e hs
      subst he
      intro hcontra
      have : (Except.error PyErr.splitFail : Except PyErr GPState) >>=
          (fun st' => rs.foldlM (gpStep sp m) st') = .error .splitFail := rfl
      rw [this] at hcontra
      exact absurd hcontra (by simp)
    · have : (Except.ok st' : Except PyErr GPState) >>=
          (fun st' => rs.foldlM (gpStep sp m) st') = rs.foldlM (gpStep sp m) st' := rfl
      rw [this]
      exact ih st'

/-- C10: `generate_passages` reads `data[0]` before the loop, so the
empty stream fails with the indexing error (and yields no passage list at
all), while no non-empty stream can fail that way. -/
theorem c10_empty_stream (data : List ParaRecord) (maxLen : ℕ) (sp : Str → List Str)
    (h : data ≠ []) :
    generate_passages [] maxLen sp = .error .indexError ∧
    generate_passages data maxLen sp ≠ .error .indexError := by
  refine ⟨rfl, ?_⟩
  cases data with
  | nil => exact absurd rfl h
  | cons d ds =>
    have heq : generate_passages (d :: ds) maxLen sp =
        Except.map GPState.out ((d :: ds).foldlM (gpStep sp maxLen) ⟨0, [], d, []⟩) := rfl
    rw [heq]
    intro hcontra
    apply gpFold_no_index sp maxLen (d :: ds) ⟨0, [], d, []⟩
    rcases hf : (d :: ds).foldlM (gpStep sp maxLen) ⟨0, [], d, []⟩ with e | stf
    · rw [hf] at hcontra
      simp [Except.map] at hcontra
      rw [hcontra]
    · rw [hf] at hcontra
      simp [Except.map] at hcontra

/-- C10 witness: the one-record stream is accepted, the empty one is
rejected with the indexing error. -/
theorem c10_empty_stream_witness :
    [recA] ≠ ([] : List ParaRecord) ∧
    (generate_passages [] 750 idSplitter = .error .indexError ∧
     generate_passages [recA] 750 idSplitter ≠ .error .indexError) :=
  ⟨by simp, c10_empty_stream [recA] 750 idSplitter (by simp)⟩

/-- C1: the code of `generate_passages` flushes a buffered group only
inside the loop, when a later record changes the `(title, section)` key;
there is no flush after the loop.  On a stream whose final group is the
two same-key records `recA, recA2` the function therefore returns no
passage at all — the buffered text `hello\nworld` is silently dropped,
contradicting the specified end-of-stream flush. -/
theorem c1_last_group_dropped :
    generate_passages [recA, recA2] 750 idSplitter = .ok [] := by rfl

/-- C9: what `main` actually writes.  `generate_passages` yields items
that are already `json.dumps` strings, and `main` serializes each yielded
item again, so every output line is the serialization of a JSON *string*
(it opens with a quote character), not of a JSON object with the fields
`id, pageid, revid, title, section, text` (whose serialization opens with
a brace).  Concretely, for the two-record stream `recA, recB` the single
output line is the double-encoded passage of `recA`. -/
theorem c9_double_encoded :
    mainLines [recA, recB] 750 idSplitter = .ok [dumpsStr (passageDump passage0)] ∧
    ∀ fs : List (Str × Str), dumpsStr (passageDump passage0) ≠ dumpsObj fs := by
  refine ⟨by rfl, ?_⟩
  intro fs hcontra
  have h1 : (dumpsStr (passageDump passage0)).head? = some '"' := rfl
  have h2 : (dumpsObj fs).head? = some '\x7b' := rfl
  rw [hcontra, h2] at h1
  injection h1 with h3
  exact absurd h3 (by decide)

/-- C2 counterexample: the state machine of
`extract_paragraphs_from_html` does not enforce the heading hierarchy on
inputs that violate the assumed `h3 -> h4 -> dt` order.  The HTML
`<section><h4>Y</h4><p>some text here</p></section>` (well-formed, using
only default extractable tags) produces the event stream below, and the
emitted record carries `h3 = none` with `h4` present. -/
theorem c2_counterexample :
    allMono (extract_paragraphs_from_html id ⟨none, none, none, none⟩
      [HTag.h4 (strL "Y"), HTag.para (strL "some text here") (strL "p")]) = false := by
  decide

/-! ### Content preservation through the Chunk Balancer -/

theorem dropWhile_eq_self_of (p : Char → Bool) (l : Str) (h : ∀ c ∈ l, p c = false) :
    l.dropWhile p = l := by
  cases l with
  | nil => rfl
  | cons a l => simp [List.dropWhile_cons, h a (List.mem_cons_self a l)]

theorem content_dropWhile (l : Str) : content (l.dropWhile pySpace) = content l := by
  induction l with
  | nil => rfl
  | cons a l ih =>
    by_cases ha : pySpace a
    · rw [List.dropWhile_cons, if_pos ha, ih]
      simp [content, List.filter_cons, ha]
    · rw [List.dropWhile_cons, if_neg ha]

theorem content_nil : content ([] : Str) = [] := rfl

theorem content_append (a b : Str) : content (a ++ b) = content a ++ content b :=
  List.filter_append a b

theorem content_reverse (l : Str) : content l.reverse = (content l).reverse := by
  induction l with
  | nil => rfl
  | cons a l ih =>
    rw [List.reverse_cons, content_append, ih]
    by_cases ha : pySpace a
    · simp [content, List.filter_cons, ha]
    · simp [content, List.filter_cons, ha]

theorem content_pyStrip (l : Str) : content (pyStrip l) = content l := by
  unfold pyStrip
  rw [content_reverse, content_dropWhile, content_reverse, List.reverse_reverse,
    content_dropWhile]

theorem splitRuns_ne_nil (s : Str) : splitRuns s ≠ [] := by
  induction s with
  | nil => simp [splitRuns]
  | cons c s ih =>
    rw [splitRuns]
    by_cases hc : c = '\n'
    · rw [if_pos hc]
      by_cases hs : startsNl s
      · simpa [hs] using ih
      · simp [hs]
    · rw [if_neg hc]
      rcases h : splitRuns s with _ | ⟨seg, rest⟩ <;> simp

theorem splitRuns_flatten (s : Str) :
    (splitRuns s).flatten = s.filter (fun c => !(c == '\n')) := by
  induction s with
  | nil => rfl
  | cons c s ih =>
    rw [splitRuns]
    by_cases hc : c = '\n'
    · rw [if_pos hc]
      subst hc
      by_cases hs : startsNl s
      · rw [if_pos hs, ih]
        simp [List.filter_cons]
      · rw [if_neg hs]
        simp [List.flatten_cons, ih, List.filter_cons]
    · rw [if_neg hc]
      rcases h : splitRuns s with _ | ⟨seg, rest⟩
      · exact absurd h (splitRuns_ne_nil s)
      · rw [h] at ih
        have h1 : ((c :: seg) :: rest).flatten = c :: (seg :: rest).flatten := by simp
        rw [h1, ih, List.filter_cons]
        simp [hc]

theorem filter_nonspace_nonnl (s : Str) :
    ((s.filter fun c => !(c == '\n')).filter fun c => !pySpace c) =
      s.filter fun c => !pySpace c := by
  induction s with
  | nil => rfl
  | cons a s ih =>
    by_cases ha : a = '\n'
    · subst ha
      have h1 : (!(('\n' : Char) == '\n')) = false := by decide
      have h2 : (!pySpace '\n') = false := by decide
      rw [List.filter_cons, List.filter_cons, h1, h2]
      simpa using ih
    · have h1 : (!(a == '\n')) = true := by simp [ha]
      rw [List.filter_cons, h1]
      by_cases hsp : pySpace a
      · have h2 : (!pySpace a) = false := by simp [hsp]
        simp only [if_true]
        rw [List.filter_cons, List.filter_cons, h2]
        simpa using ih
      · have h2 : (!pySpace a) = true := by simp [hsp]
        simp only [if_true]
        rw [List.filter_cons, List.filter_cons, h2]
        simpa using ih

theorem content_flatten_splitRuns (s : Str) : content (splitRuns s).flatten = content s := by
  rw [splitRuns_flatten]
  exact filter_nonspace_nonnl s

theorem content_flatten_appendNl : ∀ L : List Str, content (appendNl L).flatten = content L.flatten
  | [] => rfl
  | [s] => by
    have hnl : content ['\n'] = [] := rfl
    simp [appendNl, content_append, hnl]
  | s :: t :: r => by
    have ih := content_flatten_appendNl (t :: r)
    simp only [appendNl, List.flatten_cons, content_append, ih]

theorem content_foldl_sentences (sp : Str → List Str) (hsp : ∀ l, (sp l).flatten = l) :
    ∀ (lines acc : List Str),
      content (lines.foldl (fun a line => appendNl (a ++ sp line)) acc).flatten =
        content acc.flatten ++ content lines.flatten := by
  intro lines
  induction lines with
  | nil => intro acc; simp [content_nil]
  | cons line ls ih =>
    intro acc
    rw [List.foldl_cons, ih, content_flatten_appendNl, List.flatten_append, content_append,
      hsp]
    simp [content_append, List.append_assoc]

theorem content_buildSentences (sp : Str → List Str) (hsp : ∀ l, (sp l).flatten = l)
    (lines : List Str) :
    content (buildSentences sp lines).flatten = content lines.flatten := by
  have h := content_foldl_sentences sp hsp lines []
  simpa [buildSentences] using h

theorem packStep_content (q : ℚ) (n : ℕ) (st : PackState) (sent : Str) :
    content ((packStep q n st sent).chunks.flatten ++ (packStep q n st sent).cur) =
      content (st.chunks.flatten ++ st.cur) ++ content sent := by
  unfold packStep
  by_cases h1 : q * (st.chunkId : ℚ) ≤ ((st.nchar + sent.length / 2 : ℕ) : ℚ)
  · by_cases h2 : st.chunkId ≠ n
    · simp only [if_pos h1, if_pos h2]
      simp [content_append, List.flatten_append, content_pyStrip, List.append_assoc]
    · simp only [if_pos h1, if_neg h2]
      simp [content_append, List.append_assoc]
  · simp only [if_neg h1]
    simp [content_append, List.append_assoc]

theorem content_pack_fold (q : ℚ) (n : ℕ) :
    ∀ (sents : List Str) (st : PackState),
      content ((sents.foldl (packStep q n) st).chunks.flatten ++
          (sents.foldl (packStep q n) st).cur) =
        content (st.chunks.flatten ++ st.cur) ++ content sents.flatten := by
  intro sents
  induction sents with
  | nil => intro st; simp [content_nil]
  | cons sent ss ih =>
    intro st
    rw [List.foldl_cons, ih, packStep_content]
    simp [content_append, List.append_assoc]

theorem content_packChunks (q : ℚ) (n : ℕ) (sents : List Str) :
    content (packChunks q n sents).flatten = content sents.flatten := by
  unfold packChunks
  have h := content_pack_fold q n sents ⟨0, 1, [], []⟩
  simp only [List.flatten_nil, List.nil_append, content] at h
  by_cases hc : (sents.foldl (packStep q n) ⟨0, 1, [], []⟩).cur ≠ []
  · simp only [if_pos hc]
    have hx : content ((sents.foldl (packStep q n) ⟨0, 1, [], []⟩).chunks ++
        [pyStrip (sents.foldl (packStep q n) ⟨0, 1, [], []⟩).cur]).flatten =
        content ((sents.foldl (packStep q n) ⟨0, 1, [], []⟩).chunks.flatten ++
          (sents.foldl (packStep q n) ⟨0, 1, [], []⟩).cur) := by
      simp [List.flatten_append, content_append, content_pyStrip]
    rw [hx]
    simpa [content] using h
  · simp only [if_neg hc]
    have hc' : (sents.foldl (packStep q n) ⟨0, 1, [], []⟩).cur = [] := not_not.mp hc
    rw [hc'] at h
    simpa [content] using h

/-- C3 (amended): for every text, budget of at least one character and
contract-satisfying splitter, `split_section` succeeds and the
concatenation of its chunks preserves the input's non-whitespace
character sequence exactly.  (The original round-trip claim is refuted
below: whitespace is not only trimmed at chunk edges — interior newline
runs are collapsed by the `re.split` / rejoin step.) -/
theorem c3_roundtrip (text : Str) (splitter : Str → List Str) (max_nchar : ℕ)
    (hsp : ∀ l, (splitter l).flatten = l) (hm : 1 ≤ max_nchar) :
    (split_section text splitter max_nchar).isSome = true ∧
    content ((split_section text splitter max_nchar).getD []).flatten = content text := by
  by_cases hle : text.length ≤ max_nchar
  · unfold split_section
    rw [if_pos hle]
    exact ⟨rfl, by simp⟩
  · have hn0 : 0 < max 1 (pyRound ((text.length : ℚ) / (max_nchar : ℚ))).toNat :=
      lt_of_lt_of_le Nat.zero_lt_one (le_max_left _ _)
    have hfuel : text.length ≤
        max_nchar * (max 1 (pyRound ((text.length : ℚ) / (max_nchar : ℚ))).toNat + text.length) := by
      calc text.length
          ≤ max 1 (pyRound ((text.length : ℚ) / (max_nchar : ℚ))).toNat + text.length := by omega
        _ ≤ max_nchar * (max 1 (pyRound ((text.length : ℚ) / (max_nchar : ℚ))).toNat + text.length) :=
            Nat.le_mul_of_pos_left _ hm
    obtain ⟨nf, heq, hnf, hle2⟩ :=
      adjustLoop_some text.length max_nchar text.length
        (max 1 (pyRound ((text.length : ℚ) / (max_nchar : ℚ))).toNat) hn0 hfuel
    unfold split_section
    rw [if_neg hle, heq]
    refine ⟨rfl, ?_⟩
    show content (packChunks ((text.length : ℚ) / (nf : ℚ)) nf
        (buildSentences splitter (splitRuns text))).flatten = content text
    rw [content_packChunks, content_buildSentences splitter hsp, content_flatten_splitRuns]

/-- C3 counterexample: with the contract-satisfying one-sentence-per-line
splitter, the text `a
(blank line)
b
cccccccccccccccccccc` under budget 12 yields the chunk `a
b` — which is not an infix of the original text (the interior `\n\n` was
collapsed to `\n` inside a chunk), so the chunks cannot be obtained from
the original by trimming chunk-edge whitespace and dropping inter-chunk
separators. -/
theorem c3_counterexample :
    split_section cex3Text idSplitter 12 = some [strL "a\nb", List.replicate 20 'c'] ∧
    ¬ strL "a\nb" <:+: cex3Text := by
  constructor
  · with_unfolding_all decide
  · decide

/-- C3 witness: the amended round-trip at the counterexample text. -/
theorem c3_roundtrip_witness :
    (split_section cex3Text idSplitter 12).isSome = true ∧
    content ((split_section cex3Text idSplitter 12).getD []).flatten = content cex3Text :=
  c3_roundtrip cex3Text idSplitter 12 (fun l => by simp [idSplitter]) (by decide)

/-! ### The chunk-count bound and the length-2000 example -/

theorem packStep_cid (q : ℚ) (n : ℕ) (st : PackState) (sent : Str)
    (h1 : st.chunks.length + 1 = st.chunkId) (h2 : st.chunkId ≤ n) :
    (packStep q n st sent).chunks.length + 1 = (packStep q n st sent).chunkId ∧
    (packStep q n st sent).chunkId ≤ n := by
  unfold packStep
  by_cases hc : q * (st.chunkId : ℚ) ≤ ((st.nchar + sent.length / 2 : ℕ) : ℚ)
  · by_cases hne : st.chunkId ≠ n
    · simp only [if_pos hc, if_pos hne, List.length_append, List.length_singleton]
      exact ⟨by omega, by omega⟩
    · simp only [if_pos hc, if_neg hne]
      exact ⟨h1, h2⟩
  · simp only [if_neg hc]
    exact ⟨h1, h2⟩

theorem pack_fold_cid (q : ℚ) (n : ℕ) :
    ∀ (sents : List Str) (st : PackState),
      st.chunks.length + 1 = st.chunkId → st.chunkId ≤ n →
      ((sents.foldl (packStep q n) st).chunks.length + 1 =
          (sents.foldl (packStep q n) st).chunkId ∧
        (sents.foldl (packStep q n) st).chunkId ≤ n) := by
  intro sents
  induction sents with
  | nil => intro st h1 h2; exact ⟨h1, h2⟩
  | cons sent ss ih =>
    intro st h1 h2
    rw [List.foldl_cons]
    obtain ⟨g1, g2⟩ := packStep_cid q n st sent h1 h2
    exact ih _ g1 g2

theorem packChunks_length_le (q : ℚ) (n : ℕ) (hn : 1 ≤ n) (sents : List Str) :
    (packChunks q n sents).length ≤ n := by
  unfold packChunks
  obtain ⟨h1, h2⟩ := pack_fold_cid q n sents ⟨0, 1, [], []⟩ (by simp) (by simpa using hn)
  by_cases hc : (sents.foldl (packStep q n) ⟨0, 1, [], []⟩).cur ≠ []
  · simp only [if_pos hc, List.length_append]
    simp
    omega
  · simp only [if_neg hc]
    omega

/-- C4 (amended): for every text of 2000 characters, budget 750 and
contract-satisfying splitter, `split_section` succeeds with at most the
planned 3 chunks, and the chunks' concatenation preserves the text's
non-whitespace content.  ("Exactly 3", "each non-empty" and exact
reconstruction fail for some valid splitters — see the counterexample.) -/
theorem c4_three_chunks (text : Str) (splitter : Str → List Str)
    (hsp : ∀ l, (splitter l).flatten = l) (hlen : text.length = 2000) :
    (split_section text splitter 750).isSome = true ∧
    ((split_section text splitter 750).getD []).length ≤ 3 ∧
    content ((split_section text splitter 750).getD []).flatten = content text := by
  have hle : ¬ text.length ≤ 750 := by rw [hlen]; norm_num
  have hn0 : max 1 (pyRound ((text.length : ℚ) / ((750 : ℕ) : ℚ))).toNat = 3 := by
    rw [hlen]; with_unfolding_all decide
  have hadj : adjustLoop (text.length + 1) text.length 750 3 = some 3 := by
    rw [hlen, adjustLoop, if_neg (by with_unfolding_all decide)]
  unfold split_section
  rw [if_neg hle, hn0, hadj]
  refine ⟨rfl, ?_, ?_⟩
  · exact packChunks_length_le _ 3 (by norm_num) _
  · show content (packChunks ((text.length : ℚ) / ((3 : ℕ) : ℚ)) 3
        (buildSentences splitter (splitRuns text))).flatten = content text
    rw [content_packChunks, content_buildSentences splitter hsp, content_flatten_splitRuns]

/-- C4 witness: the amended statement applied at the 2000-character text
of `a`s with the one-sentence-per-line splitter. -/
theorem c4_three_chunks_witness :
    (split_section (List.replicate 2000 'a') idSplitter 750).isSome = true ∧
    ((split_section (List.replicate 2000 'a') idSplitter 750).getD []).length ≤ 3 ∧
    content ((split_section (List.replicate 2000 'a') idSplitter 750).getD []).flatten =
      content (List.replicate 2000 'a') :=
  c4_three_chunks (List.replicate 2000 'a') idSplitter (fun l => by simp [idSplitter])
    (by rw [List.length_replicate])

theorem splitRuns_no_nl (s : Str) (h : ∀ c ∈ s, ¬ c = '\n') : splitRuns s = [s] := by
  induction s with
  | nil => rfl
  | cons c s ih =>
    rw [splitRuns, if_neg (h c (List.mem_cons_self c s))]
    rw [ih (fun d hd => h d (List.mem_cons_of_mem c hd))]

theorem pyStrip_append_nl (t : Str) (h : ∀ c ∈ t, pySpace c = false) :
    pyStrip (t ++ ['\n']) = t := by
  cases t with
  | nil => rfl
  | cons a t' =>
    unfold pyStrip
    have ha : pySpace a = false := h a (List.mem_cons_self a t')
    have h1 : ((a :: t') ++ ['\n']).dropWhile pySpace = (a :: t') ++ ['\n'] := by
      rw [List.cons_append, List.dropWhile_cons, ha]
      simp
    rw [h1]
    have h2 : ((a :: t') ++ ['\n']).reverse = '\n' :: (a :: t').reverse := by
      simp [List.reverse_append]
    rw [h2, List.dropWhile_cons]
    have h3 : pySpace '\n' = true := by decide
    rw [h3]
    simp only [if_true]
    rw [dropWhile_eq_self_of pySpace (a :: t').reverse
      (fun c hc => h c (List.mem_reverse.mp hc))]
    rw [List.reverse_reverse]

/-- C4 counterexample: the claim quantifies over every contract-satisfying
sentence splitter, but with the (contract-satisfying) one-sentence-per-line
splitter the 2000-character text of `a`s is split into 2 chunks, the first
of which is empty: the single huge sentence immediately triggers the
half-sentence threshold, closing the still-empty first chunk.  So "exactly
3 chunks, each non-empty" fails. -/
theorem c4_counterexample :
    split_section (List.replicate 2000 'a') idSplitter 750 =
      some [[], List.replicate 2000 'a'] ∧
    ([([] : Str), List.replicate 2000 'a']).length ≠ 3 ∧
    ([] : Str) ∈ [([] : Str), List.replicate 2000 'a'] := by
  refine ⟨?_, by decide, List.mem_cons_self _ _⟩
  have ht_ns : ∀ c ∈ List.replicate 2000 'a', pySpace c = false := by
    intro c hc
    rw [List.eq_of_mem_replicate hc]
    decide
  have ht_nl : ∀ c ∈ List.replicate 2000 'a', ¬ c = '\n' := by
    intro c hc
    rw [List.eq_of_mem_replicate hc]
    decide
  have hlen : (List.replicate 2000 'a').length = 2000 := by rw [List.length_replicate]
  have hle : ¬ (List.replicate 2000 'a').length ≤ 750 := by rw [hlen]; norm_num
  have hn0 : max 1 (pyRound (((List.replicate 2000 'a').length : ℚ) / ((750 : ℕ) : ℚ))).toNat
      = 3 := by
    rw [hlen]; with_unfolding_all decide
  have hadj : adjustLoop ((List.replicate 2000 'a').length + 1)
      (List.replicate 2000 'a').length 750 3 = some 3 := by
    rw [hlen, adjustLoop, if_neg (by with_unfolding_all decide)]
  have hsr : splitRuns (List.replicate 2000 'a') = [List.replicate 2000 'a'] :=
    splitRuns_no_nl _ ht_nl
  have hbs : buildSentences idSplitter [List.replicate 2000 'a'] =
      [List.replicate 2000 'a' ++ ['\n']] := rfl
  have hlen2 : (List.replicate 2000 'a' ++ ['\n']).length = 2001 := by
    rw [List.length_append, hlen]
    rfl
  have hstep : ∀ sent : Str, sent.length = 2001 →
      packStep (((List.replicate 2000 'a').length : ℚ) / ((3 : ℕ) : ℚ)) 3
        ⟨0, 1, [], []⟩ sent = ⟨2001, 2, [[]], sent⟩ := by
    intro sent hs
    unfold packStep
    rw [hs, hlen]
    with_unfolding_all rfl
  have hcur : (List.replicate 2000 'a' ++ ['\n']) ≠ ([] : Str) := by
    intro hnil
    exact absurd (List.append_eq_nil.mp hnil).2 (by simp)
  have hpack : packChunks (((List.replicate 2000 'a').length : ℚ) / ((3 : ℕ) : ℚ)) 3
      [List.replicate 2000 'a' ++ ['\n']] = [[], List.replicate 2000 'a'] := by
    unfold packChunks
    rw [List.foldl_cons, List.foldl_nil, hstep _ hlen2]
    rw [if_pos hcur]
    show [[]] ++ [pyStrip (List.replicate 2000 'a' ++ ['\n'])] = [[], List.replicate 2000 'a']
    rw [pyStrip_append_nl _ ht_ns]
    rfl
  unfold split_section
  rw [if_neg hle, hn0, hadj]
  show some (packChunks (((List.replicate 2000 'a').length : ℚ) / ((3 : ℕ) : ℚ)) 3
      (buildSentences idSplitter (splitRuns (List.replicate 2000 'a')))) =
    some [[], List.replicate 2000 'a']
  rw [hsr, hbs, hpack]

/-! ### The heading-context hierarchy -/

theorem monoCtx_step (c : HCtx) (e : HTag) (hm : monoCtx c = true)
    (he : wfCond c e = true) :
    monoCtx (stepCtx c e) = true := by
  obtain ⟨h2, h3, h4, dt⟩ := c
  cases e <;> cases h3 <;> cases h4 <;> cases dt <;> simp_all [monoCtx, stepCtx, wfCond]

/-- C2 (amended): starting from the all-absent initial context, on every
tag-event stream that respects the assumed `h3 -> h4 -> dt` ordering
(each `h4` arrives while an `h3` is in scope, each `dt` while an `h4` is
in scope — which holds for well-nested Wikipedia section HTML), every
record emitted by `extract_paragraphs_from_html` has a monotone heading
context: `h3` absent forces `h4` and `dt` absent, and `h4` absent forces
`dt` absent.  The unconditional claim over arbitrary HTML is refuted by
the counterexample above. -/
theorem c2_heading_monotone (nfkc : Str → Str) (evs : List HTag) (c : HCtx)
    (hm : monoCtx c = true) (hwf : wfTags c evs = true) :
    allMono (extract_paragraphs_from_html nfkc c evs) = true := by
  induction evs generalizing c with
  | nil => rfl
  | cons e es ih =>
    rw [wfTags] at hwf
    rw [Bool.and_eq_true] at hwf
    obtain ⟨he, hrest⟩ := hwf
    cases e with
    | para t k =>
      show allMono ((c, normalize_text nfkc t, k) :: extract_paragraphs_from_html nfkc c es)
        = true
      rw [allMono, List.all_cons, Bool.and_eq_true]
      exact ⟨hm, ih c hm hrest⟩
    | h2 s => exact ih _ (monoCtx_step c (HTag.h2 s) hm he) hrest
    | h3 s => exact ih _ (monoCtx_step c (HTag.h3 s) hm he) hrest
    | h4 s => exact ih _ (monoCtx_step c (HTag.h4 s) hm he) hrest
    | dt s => exact ih _ (monoCtx_step c (HTag.dt s) hm he) hrest

/-- C2 witness: a well-ordered stream `h2, h3, h4, p` yields only
monotone contexts. -/
theorem c2_heading_monotone_witness :
    monoCtx ⟨none, none, none, none⟩ = true ∧
    wfTags ⟨none, none, none, none⟩ evsW = true ∧
    allMono (extract_paragraphs_from_html id ⟨none, none, none, none⟩ evsW) = true :=
  ⟨by decide, by decide,
    c2_heading_monotone id evsW ⟨none, none, none, none⟩ (by decide) (by decide)⟩

/-! ### Dense passage ids -/

theorem mkPassages_ids (pid : ℕ) (lastrow : ParaRecord) (chunks : List Str) :
    (mkPassages pid lastrow chunks).map Passage.id = (List.range chunks.length).map (pid + ·) := by
  unfold mkPassages
  rw [List.map_map]
  have h1 : (Passage.id ∘ fun ic : ℕ × Str =>
      (⟨pid + ic.1, lastrow.pageid, lastrow.revid, lastrow.title, lastrow.sect, ic.2⟩ : Passage)) =
      (fun i : ℕ => pid + i) ∘ Prod.fst := rfl
  rw [h1, ← List.map_map]
  rw [List.map_fst_zip _ _ (by rw [List.length_range])]

theorem mkPassages_length (pid : ℕ) (lastrow : ParaRecord) (chunks : List Str) :
    (mkPassages pid lastrow chunks).length = chunks.length := by
  simp [mkPassages]

/-- The invariant threaded through the `generate_passages` loop: the
passage-id counter equals the number of passages yielded so far, and the
yielded ids are exactly `0, 1, ..., count - 1` in order. -/
def gpInv (st : GPState) : Prop :=
  st.pid = st.out.length ∧ st.out.map Passage.id = List.range st.out.length

theorem gpStep_inv (sp : Str → List Str) (m : ℕ) (st : GPState) (row : ParaRecord)
    (st' : GPState) (h : gpInv st) (he : gpStep sp m st row = .ok st') : gpInv st' := by
  unfold gpStep at he
  by_cases hc : row.title ≠ st.last.title ∨ row.sect ≠ st.last.sect
  · rw [if_pos hc] at he
    rcases hs : split_section (joinSep '\n' (st.rows.map (·.text))) sp m with _ | chunks
    · rw [hs] at he
      exact absurd he (by simp)
    · rw [hs] at he
      injection he with he'
      subst he'
      obtain ⟨h1, h2⟩ := h
      constructor
      · show st.pid + chunks.length = (st.out ++ mkPassages st.pid st.last chunks).length
        rw [List.length_append, mkPassages_length, h1]
      · show (st.out ++ mkPassages st.pid st.last chunks).map Passage.id =
          List.range (st.out ++ mkPassages st.pid st.last chunks).length
        rw [List.map_append, mkPassages_ids, List.length_append, mkPassages_length, h2,
          List.range_add, h1]
  · rw [if_neg hc] at he
    injection he with he'
    subst he'
    exact h

theorem gpFold_inv (sp : Str → List Str) (m : ℕ) :
    ∀ (l : List ParaRecord) (st st' : GPState), gpInv st →
      l.foldlM (gpStep sp m) st = .ok st' → gpInv st' := by
  intro l
  induction l with
  | nil =>
    intro st st' h hf
    rw [List.foldlM_nil] at hf
    injection hf with hf'
    rw [← hf']
    exact h
  | cons r rs ih =>
    intro st st' h hf
    rw [List.foldlM_cons] at hf
    rcases hs : gpStep sp m st r with e | st1
    · rw [hs] at hf
      exact absurd hf (by simp [Bind.bind, Except.bind])
    · rw [hs] at hf
      have hbind : (Except.ok st1 : Except PyErr GPState) >>=
          (fun s => rs.foldlM (gpStep sp m) s) = rs.foldlM (gpStep sp m) st1 := rfl
      rw [hbind] at hf
      exact ih st1 st' (gpStep_inv sp m st r st1 h hs) hf

/-- C7: across the whole output of `generate_passages` — all groups and
all titles — the passage ids are exactly `0, 1, 2, ...` in emission
order: dense, strictly increasing, starting at 0, no gaps, no reuse. -/
theorem c7_ids_dense (data : List ParaRecord) (maxLen : ℕ) (sp : Str → List Str)
    (out : List Passage) (h : generate_passages data maxLen sp = .ok out) :
    out.map Passage.id = List.range out.length := by
  cases data with
  | nil => exact absurd h (by simp [generate_passages])
  | cons d ds =>
    have heq : generate_passages (d :: ds) maxLen sp =
        Except.map GPState.out ((d :: ds).foldlM (gpStep sp maxLen) ⟨0, [], d, []⟩) := rfl
    rw [heq] at h
    rcases hf : (d :: ds).foldlM (gpStep sp maxLen) ⟨0, [], d, []⟩ with e | stf
    · rw [hf] at h
      exact absurd h (by simp [Except.map])
    · rw [hf] at h
      have hout : stf.out = out := by
        have : Except.map GPState.out (Except.ok stf) = (Except.ok stf.out : Except PyErr _) :=
          rfl
        rw [this] at h
        injection h
      have hinv := gpFold_inv sp maxLen (d :: ds) ⟨0, [], d, []⟩ stf ⟨rfl, rfl⟩ hf
      rw [← hout]
      exact hinv.2

/-- C7 witness: the two-record stream with a title change yields the
single passage with id 0. -/
theorem c7_ids_dense_witness :
    generate_passages [recA, recB] 750 idSplitter = .ok [passage0] ∧
    [passage0].map Passage.id = List.range [passage0].length :=
  ⟨by rfl, c7_ids_dense [recA, recB] 750 idSplitter [passage0] (by rfl)⟩

/-! ### Idempotence of the normalization pipeline -/

theorem pySplitWs_cons_ne_nil (d : Char) (s : Str) (hd : pySpace d = false) :
    pySplitWs (d :: s) ≠ [] := by
  intro h
  rw [pySplitWs, if_neg (by simp [hd])] at h
  by_cases hsw : startsWord s
  · rw [if_pos hsw] at h
    rcases hr : pySplitWs s with _ | ⟨w0, rest⟩ <;> rw [hr] at h <;> exact absurd h (by simp)
  · rw [if_neg hsw] at h
    exact absurd h (by simp)

theorem pySplitWs_props :
    ∀ (s : Str) (w : Str), w ∈ pySplitWs s →
      w ≠ [] ∧ ∀ c ∈ w, pySpace c = false ∧ c ∈ s := by
  intro s
  induction s with
  | nil => intro w hw; exact absurd hw (by simp [pySplitWs])
  | cons c s ih =>
    intro w hw
    rw [pySplitWs] at hw
    by_cases hc : pySpace c
    · rw [if_pos (by simp [hc])] at hw
      obtain ⟨hne, hprops⟩ := ih w hw
      exact ⟨hne, fun d hd => ⟨(hprops d hd).1, List.mem_cons_of_mem c (hprops d hd).2⟩⟩
    · have hc' : pySpace c = false := by simpa using hc
      rw [if_neg (by simp [hc'])] at hw
      by_cases hsw : startsWord s
      · rw [if_pos hsw] at hw
        rcases hr : pySplitWs s with _ | ⟨w0, rest⟩
        · rw [hr] at hw
          have hwc : w = [c] := by simpa using hw
          subst hwc
          refine ⟨by simp, ?_⟩
          intro d hd
          have hdc : d = c := by simpa using hd
          subst hdc
          exact ⟨hc', List.mem_cons_self d s⟩
        · rw [hr] at hw
          rcases List.mem_cons.mp hw with hwc | hwrest
          · subst hwc
            obtain ⟨_, hprops⟩ := ih w0 (by rw [hr]; exact List.mem_cons_self w0 rest)
            refine ⟨by simp, ?_⟩
            intro d hd
            rcases List.mem_cons.mp hd with hdc | hdw0
            · subst hdc
              exact ⟨hc', List.mem_cons_self d s⟩
            · exact ⟨(hprops d hdw0).1, List.mem_cons_of_mem c (hprops d hdw0).2⟩
          · obtain ⟨hne, hprops⟩ := ih w (by rw [hr]; exact List.mem_cons_of_mem w0 hwrest)
            exact ⟨hne, fun d hd => ⟨(hprops d hd).1, List.mem_cons_of_mem c (hprops d hd).2⟩⟩
      · rw [if_neg hsw] at hw
        rcases List.mem_cons.mp hw with hwc | hwrest
        · subst hwc
          refine ⟨by simp, ?_⟩
          intro d hd
          have hdc : d = c := by simpa using hd
          subst hdc
          exact ⟨hc', List.mem_cons_self d s⟩
        · obtain ⟨hne, hprops⟩ := ih w hwrest
          exact ⟨hne, fun d hd => ⟨(hprops d hd).1, List.mem_cons_of_mem c (hprops d hd).2⟩⟩

theorem pySplitWs_word :
    ∀ (w : Str), w ≠ [] → (∀ c ∈ w, pySpace c = false) → pySplitWs w = [w] := by
  intro w
  induction w with
  | nil => intro h; exact absurd rfl h
  | cons c w' ih =>
    intro _ hns
    have hc : pySpace c = false := hns c (List.mem_cons_self c w')
    rw [pySplitWs, if_neg (by simp [hc])]
    cases w' with
    | nil => simp [startsWord, pySplitWs]
    | cons d w'' =>
      have hd : pySpace d = false := hns d (List.mem_cons_of_mem c (List.mem_cons_self d w''))
      have hsw : startsWord (d :: w'') = true := by simp [startsWord, hd]
      rw [if_pos hsw]
      rw [ih (by simp) (fun e he => hns e (List.mem_cons_of_mem c he))]

theorem pySplitWs_word_space :
    ∀ (w : Str) (rest : Str), w ≠ [] → (∀ c ∈ w, pySpace c = false) →
      pySplitWs (w ++ ' ' :: rest) = w :: pySplitWs rest := by
  intro w
  induction w with
  | nil => intro rest h; exact absurd rfl h
  | cons c w' ih =>
    intro rest _ hns
    have hc : pySpace c = false := hns c (List.mem_cons_self c w')
    rw [List.cons_append, pySplitWs, if_neg (by simp [hc])]
    cases w' with
    | nil =>
      have hsw : startsWord ([] ++ ' ' :: rest) = false := rfl
      have hsw' : ¬ startsWord ([] ++ ' ' :: rest) = true := by
        rw [hsw]
        simp
      rw [if_neg hsw']
      have hsp : pySplitWs ([] ++ ' ' :: rest) = pySplitWs rest := by
        rw [List.nil_append, pySplitWs, if_pos (by decide)]
      rw [hsp]
    | cons d w'' =>
      have hd : pySpace d = false := hns d (List.mem_cons_of_mem c (List.mem_cons_self d w''))
      have hsw : startsWord ((d :: w'') ++ ' ' :: rest) = true := by
        simp [startsWord, hd]
      rw [if_pos hsw]
      rw [ih rest (by simp) (fun e he => hns e (List.mem_cons_of_mem c he))]

theorem pySplitWs_joinSep :
    ∀ (ws : List Str), (∀ w ∈ ws, w ≠ []) → (∀ w ∈ ws, ∀ c ∈ w, pySpace c = false) →
      pySplitWs (joinSep ' ' ws) = ws := by
  intro ws
  induction ws with
  | nil => intro _ _; rfl
  | cons w ws' ih =>
    intro h1 h2
    cases ws' with
    | nil =>
      show pySplitWs (joinSep ' ' [w]) = [w]
      rw [joinSep]
      exact pySplitWs_word w (h1 w (List.mem_cons_self w [])) (h2 w (List.mem_cons_self w []))
    | cons v ws'' =>
      rw [joinSep]
      rw [pySplitWs_word_space w (joinSep ' ' (v :: ws''))
        (h1 w (List.mem_cons_self w (v :: ws'')))
        (h2 w (List.mem_cons_self w (v :: ws'')))]
      rw [ih (fun u hu => h1 u (List.mem_cons_of_mem w hu))
        (fun u hu => h2 u (List.mem_cons_of_mem w hu))]

theorem joinSep_mem :
    ∀ (ws : List Str) (c : Char), c ∈ joinSep ' ' ws → (∃ w ∈ ws, c ∈ w) ∨ c = ' ' := by
  intro ws
  induction ws with
  | nil => intro c hc; exact absurd hc (by simp [joinSep])
  | cons w ws' ih =>
    intro c hc
    cases ws' with
    | nil => exact Or.inl ⟨w, List.mem_cons_self w [], by simpa [joinSep] using hc⟩
    | cons v ws'' =>
      rw [joinSep] at hc
      rcases List.mem_append.mp hc with hw | hrest
      · exact Or.inl ⟨w, List.mem_cons_self w (v :: ws''), hw⟩
      · rcases List.mem_cons.mp hrest with hsp | hjoin
        · exact Or.inr hsp
        · rcases ih c hjoin with ⟨u, hu, hcu⟩ | hsp
          · exact Or.inl ⟨u, List.mem_cons_of_mem w hu, hcu⟩
          · exact Or.inr hsp

theorem joinSep_rev :
    ∀ (ws : List Str), ws ≠ [] → (∀ w ∈ ws, w ≠ []) →
      (∀ w ∈ ws, ∀ c ∈ w, pySpace c = false) →
      ∃ c t, (joinSep ' ' ws).reverse = c :: t ∧ pySpace c = false := by
  intro ws
  induction ws with
  | nil => intro h; exact absurd rfl h
  | cons w ws' ih =>
    intro _ h1 h2
    cases ws' with
    | nil =>
      rcases hr : w.reverse with _ | ⟨c, t⟩
      · exact absurd (by simpa using congrArg List.reverse hr)
          (h1 w (List.mem_cons_self w []))
      · refine ⟨c, t, by simpa [joinSep] using hr, ?_⟩
        have : c ∈ w := List.mem_reverse.mp (by rw [hr]; exact List.mem_cons_self c t)
        exact h2 w (List.mem_cons_self w []) c this
    | cons v ws'' =>
      obtain ⟨c, t, hrev, hc⟩ := ih (by simp)
        (fun u hu => h1 u (List.mem_cons_of_mem w hu))
        (fun u hu => h2 u (List.mem_cons_of_mem w hu))
      refine ⟨c, t ++ ' ' :: w.reverse, ?_, hc⟩
      rw [joinSep]
      rw [List.reverse_append, List.reverse_cons, hrev]
      simp

theorem pyStrip_joinSep (ws : List Str) (h1 : ∀ w ∈ ws, w ≠ [])
    (h2 : ∀ w ∈ ws, ∀ c ∈ w, pySpace c = false) :
    pyStrip (joinSep ' ' ws) = joinSep ' ' ws := by
  cases hws : ws with
  | nil => rfl
  | cons w ws' =>
    subst hws
    obtain ⟨c0, t0, hhead, hc0⟩ : ∃ c t, joinSep ' ' (w :: ws') = c :: t ∧ pySpace c = false := by
      rcases hw : w with _ | ⟨c, w0⟩
      · exact absurd hw (h1 w (List.mem_cons_self w ws'))
      · subst hw
        have hc : pySpace c = false :=
          h2 (c :: w0) (List.mem_cons_self _ ws') c (List.mem_cons_self c w0)
        cases ws' with
        | nil => exact ⟨c, w0, by rw [joinSep], hc⟩
        | cons v ws'' => exact ⟨c, w0 ++ ' ' :: joinSep ' ' (v :: ws''),
            by rw [joinSep, List.cons_append], hc⟩
    obtain ⟨c1, t1, hrev, hc1⟩ := joinSep_rev (w :: ws') (by simp) h1 h2
    unfold pyStrip
    rw [hhead, List.dropWhile_cons, hc0]
    simp only [Bool.false_eq_true, if_false]
    rw [← hhead, hrev, List.dropWhile_cons, hc1]
    simp only [Bool.false_eq_true, if_false]
    rw [← hrev, List.reverse_reverse]

theorem normalize_text_id_eq (s : Str) (h : s.all pyPrintable = true) :
    normalize_text id s = joinSep ' ' (pySplitWs s) := by
  have hprops := pySplitWs_props s
  have hne : ∀ w ∈ pySplitWs s, w ≠ [] := fun w hw => (hprops w hw).1
  have hns : ∀ w ∈ pySplitWs s, ∀ c ∈ w, pySpace c = false :=
    fun w hw c hc => ((hprops w hw).2 c hc).1
  have hfilter : (joinSep ' ' (pySplitWs s)).filter pyPrintable = joinSep ' ' (pySplitWs s) := by
    apply List.filter_eq_self.mpr
    intro a ha
    rcases joinSep_mem (pySplitWs s) a ha with ⟨w, hw, haw⟩ | hsp
    · exact List.all_eq_true.mp h a ((hprops w hw).2 a haw).2
    · subst hsp
      decide
  show pyStrip ((joinSep ' ' (pySplitWs (id s))).filter pyPrintable) = joinSep ' ' (pySplitWs s)
  rw [id_eq, hfilter]
  exact pyStrip_joinSep (pySplitWs s) hne hns

/-- C8 (amended): `normalize_text` is idempotent on inputs made of
printable characters (the Unicode normalizer instantiated as the
identity, as it is on already-normalized ASCII).  The unrestricted claim
is refuted below: the non-printable filter runs after whitespace
collapsing, so deleting a non-printable word can leave a double space
that a second pass would collapse. -/
theorem c8_normalize_idempotent (s : Str) (h : s.all pyPrintable = true) :
    normalize_text id (normalize_text id s) = normalize_text id s := by
  have hprops := pySplitWs_props s
  have hne : ∀ w ∈ pySplitWs s, w ≠ [] := fun w hw => (hprops w hw).1
  have hns : ∀ w ∈ pySplitWs s, ∀ c ∈ w, pySpace c = false :=
    fun w hw c hc => ((hprops w hw).2 c hc).1
  have h1 := normalize_text_id_eq s h
  have hJ : (joinSep ' ' (pySplitWs s)).all pyPrintable = true := by
    apply List.all_eq_true.mpr
    intro a ha
    rcases joinSep_mem (pySplitWs s) a ha with ⟨w, hw, haw⟩ | hsp
    · exact List.all_eq_true.mp h a ((hprops w hw).2 a haw).2
    · subst hsp
      decide
  have h2 := normalize_text_id_eq (joinSep ' ' (pySplitWs s)) hJ
  rw [h1, h2, pySplitWs_joinSep (pySplitWs s) hne hns]

/-- C8 counterexample: on the pure-ASCII input `a \x01 b` (on which NFKC
is the identity, so instantiating the normalizer with `id` is faithful),
one application yields `a  b` — the removed control character leaves two
adjacent spaces — and a second application collapses them to `a b`, so
`normalize_text` is not idempotent. -/
theorem c8_counterexample :
    normalize_text id (normalize_text id (strL "a \x01 b")) ≠
      normalize_text id (strL "a \x01 b") := by
  decide

/-- C8 witness: idempotence on an all-printable input with interior
whitespace. -/
theorem c8_normalize_idempotent_witness :
    (strL "ab  cd").all pyPrintable = true ∧
    normalize_text id (normalize_text id (strL "ab  cd")) = normalize_text id (strL "ab  cd") :=
  ⟨by decide, c8_normalize_idempotent (strL "ab  cd") (by decide)⟩
